import Mathlib

/-!
Verification development for a TDOP (Pratt / precedence-climbing) expression
parser: a generic engine (`tdop.py`) instantiated with a C-like / shell
arithmetic grammar (`arith_parse.py`).

The Python sources are shallowly embedded below:
* the lexer `Tokenize` (a character-level rendering of the `TOKEN_RE`
  `findall` scanner, alternatives tried in the source's order),
* the AST model (`Node` / `CompositeNode`),
* the operator table (`ParserSpec` with `Null`, `RegisterLed`, `Left`,
  `LeftRightAssoc`, `LookupNull`, `LookupLeft`),
* the grammar handlers (`NullConstant`, `NullParen`, `NullPrefixOp`,
  `NullIncDec`, `LeftIncDec`, `LeftIndex`, `LeftTernary`, `LeftBinaryOp`,
  `LeftAssign`, `LeftComma`, `LeftFuncCall`),
* the recursive engine (`Parser.ParseUntil` / `Parser.Parse`), rendered as a
  fuel-indexed family `engine` so that all definitions are structurally
  recursive and kernel-computable.  Fuel exhaustion is modelled by the
  distinguished result `ParseErr.outOfFuel`, and we prove that with the fuel
  supplied by `ParseShell` it never occurs.

Exceptions are modelled with `Except`: each `raise` site in the source has its
own `ParseErr` constructor.  In-place mutation in the source (relabelling a
token's `type`, appending to a composite node's child list) is rendered
functionally: the updated token/node is the one placed in the result, which is
observationally identical for the parse results studied here.
-/

namespace Tdop

/-- Value carried by a token: `int(...)` for number tokens, the matched string
otherwise (`tdop.py`, `Tokenize`). -/
inductive TokenVal where
  | num (n : Nat)
  | str (s : String)
deriving DecidableEq, Repr

/-- `class Token` from `tdop.py` (the unused `loc` field is omitted). -/
structure Token where
  type : String
  val : TokenVal
deriving DecidableEq, Repr

/-- `EOF_TOKEN = Token('eof', 'eof')`. -/
def eofToken : Token := ⟨"eof", .str "eof"⟩

/-! ### Lexer

`TOKEN_RE.findall` repeatedly matches `\s*(?:(\d+)|(\w+)|(opchars+)|(punct)|((?<!\w)(?:\*|\*\*)\w+))`
left to right; at a position where no alternative matches the scan advances by
one character (so unrecognized characters are silently skipped, and the `\s*`
prefix is equivalent to skipping whitespace one character at a time since no
alternative can start with whitespace).  Alternatives are tried in the
source's order; the variadic-parameter alternative 5 is unreachable because
its first character `*` always lets alternative 3 match first, but it is kept
for faithfulness.  Character classes are the ASCII parts of `\d`, `\w`,
`\s`. -/

def isDigitChar (c : Char) : Bool := '0' ≤ c && c ≤ '9'

def isWordChar (c : Char) : Bool :=
  ('a' ≤ c && c ≤ 'z') || ('A' ≤ c && c ≤ 'Z') || isDigitChar c || c = '_'

def isOpChar (c : Char) : Bool :=
  c = '-' || c = '+' || c = '*' || c = '/' || c = '%' || c = '!' || c = '~' ||
  c = '<' || c = '>' || c = '=' || c = '&' || c = '^' || c = '|' || c = '?' || c = ':'

def isPunctChar (c : Char) : Bool :=
  c = '(' || c = ')' || c = '[' || c = ']' || c = '~' || c = '^' || c = '!' ||
  c = '?' || c = ':' || c = ','

def isSpaceChar (c : Char) : Bool :=
  c = ' ' || c = '\t' || c = '\n' || c = '\r' || c = '\x0b' || c = '\x0c'

/-- `int(...)` on a digit run. -/
def digitsToNat (cs : List Char) : Nat :=
  cs.foldl (fun acc c => 10 * acc + (c.toNat - '0'.toNat)) 0

def tokenizeAux : Nat → List Char → List Token
  | 0, _ => []
  | _, [] => []
  | fuel + 1, c :: cs =>
    if isSpaceChar c then
      tokenizeAux fuel cs
    else if isDigitChar c then
      let run := c :: cs.takeWhile isDigitChar
      Token.mk "number" (.num (digitsToNat run)) ::
        tokenizeAux fuel (cs.dropWhile isDigitChar)
    else if isWordChar c then
      let run := c :: cs.takeWhile isWordChar
      Token.mk "name" (.str (String.mk run)) ::
        tokenizeAux fuel (cs.dropWhile isWordChar)
    else if isOpChar c then
      let run := String.mk (c :: cs.takeWhile isOpChar)
      Token.mk run (.str run) :: tokenizeAux fuel (cs.dropWhile isOpChar)
    else if isPunctChar c then
      Token.mk (String.mk [c]) (.str (String.mk [c])) :: tokenizeAux fuel cs
    else
      -- alternative 5 (`(?<!\w)(?:\*|\*\*)\w+`) would go here but can never
      -- apply: its first character `*` is in alternative 3's class; a
      -- character matching no alternative is skipped by `findall`.
      tokenizeAux fuel cs

/-- `Tokenize` from `tdop.py`, as the list of tokens the generator yields. -/
def Tokenize (s : String) : List Token :=
  tokenizeAux s.length s.data

end Tdop
namespace Tdop

/-! ### AST model (`Node` / `CompositeNode` in `tdop.py`) -/

/-- `Node` (leaf) and its subclass `CompositeNode` from `tdop.py`. -/
inductive Node where
  | leaf (token : Token)
  | composite (token : Token) (children : List Node)

/-- `self.token` of either node class. -/
def Node.token : Node → Token
  | .leaf t => t
  | .composite t _ => t

/-- `self.children` of a `CompositeNode` (a plain `Node` has none). -/
def Node.children : Node → List Node
  | .leaf _ => []
  | .composite _ cs => cs

/-- `str(token.val)`: how `Node.__repr__` prints a leaf's value. -/
def TokenVal.render : TokenVal → String
  | .num n => Nat.repr n
  | .str s => s

mutual

/-- `Node.__repr__` / `CompositeNode.__repr__`: the canonical rendering
`(kind child1 child2 ...)` with leaves rendered as their literal value. -/
def Node.render : Node → String
  | .leaf t => t.val.render
  | .composite t cs => "(" ++ t.type ++ Node.renderChildren cs ++ ")"

/-- `''.join(" " + repr(c) for c in children)`. -/
def Node.renderChildren : List Node → String
  | [] => ""
  | c :: cs => " " ++ c.render ++ Node.renderChildren cs

end

/-! ### Errors

One constructor per `raise tdop.ParseError(...)` site in the sources, plus the
fuel-exhaustion marker of the embedding. -/

inductive ParseErr where
  /-- `NullError`: "%s can't be used in prefix position". -/
  | nullError (token : Token)
  /-- `LeftError`: "%s can't be used in infix position". -/
  | leftError (token : Token)
  /-- `LookupNull` / `LookupLeft` `KeyError`: "Unexpected token %r". -/
  | unexpectedToken (tokenType : String)
  /-- `ParseUntil`: "Unexpected end of input". -/
  | unexpectedEOI
  /-- `Eat`: "expected %s, got %s". -/
  | eatMismatch (expected : String) (got : Token)
  /-- `NullIncDec` / `LeftIncDec` / `LeftAssign`: "Can't assign to %r (%s)". -/
  | cantAssign (node : Node)
  /-- `LeftIndex`: "%s can't be indexed". -/
  | cantIndex (node : Node)
  /-- `LeftFuncCall`: "%s can't be called". -/
  | cantCall (node : Node)
  /-- Artifact of the fuel-indexed embedding, never a behaviour of the
  source; `ParseShell` is proved to never produce it. -/
  | outOfFuel

/-! ### Operator table (`ParserSpec`) -/

/-- Identifiers for the null-denotation handlers of `arith_parse.py`
(`nud` function values stored in the table). -/
inductive NudHandler where
  | Constant   -- NullConstant
  | Paren      -- NullParen
  | PrefixOp   -- NullPrefixOp
  | IncDec     -- NullIncDec
  | Error      -- tdop.NullError
deriving DecidableEq, Repr

/-- Identifiers for the left-denotation handlers of `arith_parse.py`
(`led` function values stored in the table). -/
inductive LedHandler where
  | IncDec     -- LeftIncDec
  | FuncCall   -- LeftFuncCall
  | Index      -- LeftIndex
  | Ternary    -- LeftTernary
  | BinaryOp   -- LeftBinaryOp
  | Assign     -- LeftAssign
  | Comma      -- LeftComma
  | Error      -- tdop.LeftError
deriving DecidableEq, Repr

/-- `NullInfo` row: `nud` handler and binding power. -/
structure NullInfo where
  nud : NudHandler
  bp : Int
deriving DecidableEq, Repr

/-- `LeftInfo` row: `led` handler, left and right binding powers.
`LeftInfo()` with no arguments is the error row `⟨.Error, 0, 0⟩`. -/
structure LeftInfo where
  led : LedHandler
  lbp : Int
  rbp : Int
deriving DecidableEq, Repr

/-- Association-list rendering of a Python dict: assignment conses the new
binding in front, lookup takes the first hit. -/
def findVal {β : Type} (k : String) : List (String × β) → Option β
  | [] => none
  | (k', v) :: rest => if k = k' then some v else findVal k rest

/-- `ParserSpec.__init__`: the two lookup dicts. -/
structure ParserSpec where
  null_lookup : List (String × NullInfo)
  left_lookup : List (String × LeftInfo)

/-- `ParserSpec.Null`: register a token that takes nothing on the left. -/
def ParserSpec.Null (spec : ParserSpec) (bp : Int) (nud : NudHandler)
    (tokens : List String) : ParserSpec :=
  tokens.foldl (fun sp token =>
    { null_lookup := (token, ⟨nud, bp⟩) :: sp.null_lookup
      left_lookup :=
        if (findVal token sp.left_lookup).isNone then
          (token, ⟨.Error, 0, 0⟩) :: sp.left_lookup
        else sp.left_lookup }) spec

/-- Loop body of `ParserSpec._RegisterLed`. -/
def ParserSpec.registerLedStep (lbp rbp : Int) (led : LedHandler)
    (sp : ParserSpec) (token : String) : ParserSpec :=
  { null_lookup :=
      if (findVal token sp.null_lookup).isNone then
        (token, ⟨.Error, 0⟩) :: sp.null_lookup
      else sp.null_lookup
    left_lookup := (token, ⟨led, lbp, rbp⟩) :: sp.left_lookup }

/-- `ParserSpec._RegisterLed`. -/
def ParserSpec.RegisterLed (spec : ParserSpec) (lbp rbp : Int)
    (led : LedHandler) (tokens : List String) : ParserSpec :=
  tokens.foldl (ParserSpec.registerLedStep lbp rbp led) spec

/-- `ParserSpec.Left`: register a left-associative infix operator. -/
def ParserSpec.Left (spec : ParserSpec) (bp : Int) (led : LedHandler)
    (tokens : List String) : ParserSpec :=
  spec.RegisterLed bp bp led tokens

/-- `ParserSpec.LeftRightAssoc`: register a right-associative infix
operator. -/
def ParserSpec.LeftRightAssoc (spec : ParserSpec) (bp : Int)
    (led : LedHandler) (tokens : List String) : ParserSpec :=
  spec.RegisterLed bp (bp - 1) led tokens

/-- `ParserSpec.LookupNull` (raises "Unexpected token" on a missing key). -/
def ParserSpec.LookupNull (spec : ParserSpec) (tokenType : String) :
    Except ParseErr NullInfo :=
  match findVal tokenType spec.null_lookup with
  | some ni => .ok ni
  | none => .error (.unexpectedToken tokenType)

/-- `ParserSpec.LookupLeft` (raises "Unexpected token" on a missing key). -/
def ParserSpec.LookupLeft (spec : ParserSpec) (tokenType : String) :
    Except ParseErr LeftInfo :=
  match findVal tokenType spec.left_lookup with
  | some li => .ok li
  | none => .error (.unexpectedToken tokenType)

/-- `COMMA_PREC = 1` from `arith_parse.py`. -/
def COMMA_PREC : Int := 1

/-- `MakeShellParserSpec` from `arith_parse.py`: the arithmetic grammar. -/
def MakeShellParserSpec : ParserSpec :=
  let spec : ParserSpec := ⟨[], []⟩
  let spec := spec.Left 31 .IncDec ["++", "--"]      -- postfix
  let spec := spec.Left 31 .FuncCall ["("]
  let spec := spec.Left 31 .Index ["["]
  let spec := spec.Null 29 .IncDec ["++", "--"]
  let spec := spec.Null 29 .PrefixOp ["+", "!", "~", "-"]
  let spec := spec.LeftRightAssoc 27 .BinaryOp ["**"]
  let spec := spec.Left 25 .BinaryOp ["*", "/", "%"]
  let spec := spec.Left 23 .BinaryOp ["+", "-"]
  let spec := spec.Left 21 .BinaryOp ["<<", ">>"]
  let spec := spec.Left 19 .BinaryOp ["<", ">", "<=", ">="]
  let spec := spec.Left 17 .BinaryOp ["!=", "=="]
  let spec := spec.Left 15 .BinaryOp ["&"]
  let spec := spec.Left 13 .BinaryOp ["^"]
  let spec := spec.Left 11 .BinaryOp ["|"]
  let spec := spec.Left 9 .BinaryOp ["&&"]
  let spec := spec.Left 7 .BinaryOp ["||"]
  let spec := spec.LeftRightAssoc 5 .Ternary ["?"]
  let spec := spec.LeftRightAssoc 3 .Assign
    ["=", "+=", "-=", "*=", "/=", "%=", "<<=", ">>=", "&=", "^=", "|="]
  let spec := spec.Left COMMA_PREC .Comma [","]
  let spec := spec.Null 0 .Paren ["("]               -- grouping
  let spec := spec.Null (-1) .Constant ["name", "number"]
  let spec := spec.Null (-1) .Error [")", "]", ":", "eof"]
  spec

/-- The grammar table used by every parse below. -/
def shellSpec : ParserSpec := MakeShellParserSpec

end Tdop
namespace Tdop

/-! ### Parser state and engine

`Parser` holds the spec, the lexer cursor and the one-token lookahead.  The
remaining stream plus the current token form the state `PState`; `Parser.Next`
pulls the next token, substituting `EOF_TOKEN` once the stream is exhausted
(the `StopIteration` branch). -/

structure PState where
  cur : Token
  rest : List Token
deriving DecidableEq, Repr

/-- `Parser.Next`. -/
def Next (st : PState) : PState :=
  match st.rest with
  | [] => ⟨eofToken, []⟩
  | t :: ts => ⟨t, ts⟩

/-- Tokens not yet consumed, counting the lookahead unless it is the
end-of-input sentinel.  Decreases at each consumption step; used for the
termination argument. -/
def PState.size (st : PState) : Nat :=
  st.rest.length + (if st.cur.type = "eof" then 0 else 1)

abbrev PResult := Except ParseErr (Node × PState)

/-- `Parser.Eat`: assert the current token's kind, then advance. -/
def Eat (val : String) (st : PState) : Except ParseErr PState :=
  if val ≠ "" ∧ st.cur.type ≠ val then .error (.eatMismatch val st.cur)
  else .ok (Next st)

/-- One fuel level of the engine: `ParseUntil` (steps 1-2 of the climb),
its inner `while` loop (`ParseLoop`), and the `while not p.AtToken(')')`
argument loop of `LeftFuncCall` (`FuncArgLoop`). -/
structure Engine where
  ParseUntil : Int → PState → PResult
  ParseLoop : Int → Node → PState → PResult
  FuncArgLoop : List Node → PState → Except ParseErr (List Node × PState)

/-! ### Null-denotation handlers (`arith_parse.py`) -/

/-- `tdop.NullError`. -/
def NullError (e : Engine) (token : Token) (bp : Int) (st : PState) : PResult :=
  .error (.nullError token)

/-- `NullConstant`: leaf node, no recursion. -/
def NullConstant (e : Engine) (token : Token) (bp : Int) (st : PState) : PResult :=
  .ok (.leaf token, st)

/-- `NullParen`: arithmetic grouping; returns the inner tree unchanged. -/
def NullParen (e : Engine) (token : Token) (bp : Int) (st : PState) : PResult :=
  match e.ParseUntil bp st with
  | .error err => .error err
  | .ok (r, st) =>
    match Eat ")" st with
    | .error err => .error err
    | .ok st => .ok (r, st)

/-- `NullPrefixOp`: prefix operator, 1-child composite. -/
def NullPrefixOp (e : Engine) (token : Token) (bp : Int) (st : PState) : PResult :=
  match e.ParseUntil bp st with
  | .error err => .error err
  | .ok (r, st) => .ok (.composite token [r], st)

/-- `NullIncDec`: `++x` / `--x`; operand must be a name or `get` node. -/
def NullIncDec (e : Engine) (token : Token) (bp : Int) (st : PState) : PResult :=
  match e.ParseUntil bp st with
  | .error err => .error err
  | .ok (right, st) =>
    if right.token.type ≠ "name" ∧ right.token.type ≠ "get" then
      .error (.cantAssign right)
    else
      .ok (.composite token [right], st)

/-! ### Left-denotation handlers (`arith_parse.py`) -/

/-- `tdop.LeftError`. -/
def LeftError (e : Engine) (token : Token) (left : Node) (rbp : Int)
    (st : PState) : PResult :=
  .error (.leftError token)

/-- `LeftIncDec`: `i++` / `i--`; relabels the token kind to `post++` /
`post--`. -/
def LeftIncDec (e : Engine) (token : Token) (left : Node) (rbp : Int)
    (st : PState) : PResult :=
  if left.token.type ≠ "name" ∧ left.token.type ≠ "get" then
    .error (.cantAssign left)
  else
    .ok (.composite { token with type := "post" ++ token.type } [left], st)

/-- `LeftIndex`: `f[x+1]`; relabels the token kind to `get`. -/
def LeftIndex (e : Engine) (token : Token) (left : Node) (unused_bp : Int)
    (st : PState) : PResult :=
  if left.token.type ≠ "name" ∧ left.token.type ≠ "get" then
    .error (.cantIndex left)
  else
    match e.ParseUntil 0 st with       -- implicit parenthesis pair
    | .error err => .error err
    | .ok (index, st) =>
      match Eat "]" st with
      | .error err => .error err
      | .ok st => .ok (.composite { token with type := "get" } [left, index], st)

/-- `LeftTernary`: `a > 1 ? x : y`; true branch at binding power 0, false
branch at the ternary's right binding power. -/
def LeftTernary (e : Engine) (token : Token) (left : Node) (bp : Int)
    (st : PState) : PResult :=
  match e.ParseUntil 0 st with
  | .error err => .error err
  | .ok (true_expr, st) =>
    match Eat ":" st with
    | .error err => .error err
    | .ok st =>
      match e.ParseUntil bp st with
      | .error err => .error err
      | .ok (false_expr, st) =>
        .ok (.composite token [left, true_expr, false_expr], st)

/-- `LeftBinaryOp`: normal binary operator. -/
def LeftBinaryOp (e : Engine) (token : Token) (left : Node) (rbp : Int)
    (st : PState) : PResult :=
  match e.ParseUntil rbp st with
  | .error err => .error err
  | .ok (r, st) => .ok (.composite token [left, r], st)

/-- `LeftAssign`: like a binary operator but the left side must be a name or
`get` node. -/
def LeftAssign (e : Engine) (token : Token) (left : Node) (rbp : Int)
    (st : PState) : PResult :=
  if left.token.type ≠ "name" ∧ left.token.type ≠ "get" then
    .error (.cantAssign left)
  else
    match e.ParseUntil rbp st with
    | .error err => .error err
    | .ok (r, st) => .ok (.composite token [left, r], st)

/-- `LeftComma`: `foo, bar, baz`; an existing comma node absorbs the new
operand into its child list (the source mutates `left.children` in place and
returns `left`; a non-composite `left` of kind `,` cannot be produced by this
grammar, and the source would fail on it). -/
def LeftComma (e : Engine) (token : Token) (left : Node) (rbp : Int)
    (st : PState) : PResult :=
  match e.ParseUntil rbp st with
  | .error err => .error err
  | .ok (r, st) =>
    if left.token.type = "," then
      .ok (.composite left.token (left.children ++ [r]), st)
    else
      .ok (.composite token [left, r], st)

/-- `LeftFuncCall`: `f(a, b)`; relabels the token kind to `call`; argument
loop in `Engine.FuncArgLoop`. -/
def LeftFuncCall (e : Engine) (token : Token) (left : Node) (unused_bp : Int)
    (st : PState) : PResult :=
  if left.token.type ≠ "name" ∧ left.token.type ≠ "get" then
    .error (.cantCall left)
  else
    match e.FuncArgLoop [left] st with
    | .error err => .error err
    | .ok (children, st) =>
      match Eat ")" st with
      | .error err => .error err
      | .ok st => .ok (.composite { token with type := "call" } children, st)

/-- Dispatch on the stored `nud` function value. -/
def runNud : NudHandler → Engine → Token → Int → PState → PResult
  | .Constant, e, t, bp, st => NullConstant e t bp st
  | .Paren, e, t, bp, st => NullParen e t bp st
  | .PrefixOp, e, t, bp, st => NullPrefixOp e t bp st
  | .IncDec, e, t, bp, st => NullIncDec e t bp st
  | .Error, e, t, bp, st => NullError e t bp st

/-- Dispatch on the stored `led` function value. -/
def runLed : LedHandler → Engine → Token → Node → Int → PState → PResult
  | .IncDec, e, t, left, rbp, st => LeftIncDec e t left rbp st
  | .FuncCall, e, t, left, rbp, st => LeftFuncCall e t left rbp st
  | .Index, e, t, left, rbp, st => LeftIndex e t left rbp st
  | .Ternary, e, t, left, rbp, st => LeftTernary e t left rbp st
  | .BinaryOp, e, t, left, rbp, st => LeftBinaryOp e t left rbp st
  | .Assign, e, t, left, rbp, st => LeftAssign e t left rbp st
  | .Comma, e, t, left, rbp, st => LeftComma e t left rbp st
  | .Error, e, t, left, rbp, st => LeftError e t left rbp st

/-- One iteration of the `while True` loop inside `Parser.ParseUntil`: break
when `rbp >= left_info.lbp`, otherwise consume the token, run its `led` with
the rule's right binding power, and loop (through `e`). -/
def ParseLoopStep (spec : ParserSpec) (e : Engine) (rbp : Int) (node : Node)
    (st : PState) : PResult :=
  match spec.LookupLeft st.cur.type with
  | .error err => .error err
  | .ok left_info =>
    -- `if rbp >= left_info.lbp: break`
    if left_info.lbp ≤ rbp then .ok (node, st)
    else
      match runLed left_info.led e st.cur node left_info.rbp (Next st) with
      | .error err => .error err
      | .ok (node, st) => e.ParseLoop rbp node st

/-- `Parser.ParseUntil` up to its loop: fail on end-of-input, otherwise
consume the current token, run its `nud`, then enter the infix loop. -/
def ParseUntilStep (spec : ParserSpec) (e : Engine) (rbp : Int)
    (st : PState) : PResult :=
  if st.cur.type = "eof" then .error .unexpectedEOI
  else
    let t := st.cur
    match spec.LookupNull t.type with
    | .error err => .error err
    | .ok null_info =>
      match runNud null_info.nud e t null_info.bp (Next st) with
      | .error err => .error err
      | .ok (node, st) => e.ParseLoop rbp node st

/-- One iteration of the `while not p.AtToken(')')` argument loop of
`LeftFuncCall`: parse one argument group at binding power 0 and splice a
comma group's children. -/
def FuncArgLoopStep (spec : ParserSpec) (e : Engine) (children : List Node)
    (st : PState) : Except ParseErr (List Node × PState) :=
  if st.cur.type = ")" then .ok (children, st)
  else
    match e.ParseUntil 0 st with   -- NullParen rbp
    | .error err => .error err
    | .ok (comma_list, st) =>
      e.FuncArgLoop
        (children ++ (if comma_list.token.type = "," then
          comma_list.children else [comma_list])) st

/-- One engine level on top of `e`: `Parser.ParseUntil`, its inner loop, and
the argument loop of `LeftFuncCall`.  All recursion goes through the lower
level `e`. -/
def mkEngine (spec : ParserSpec) (e : Engine) : Engine :=
  ⟨ParseUntilStep spec e, ParseLoopStep spec e, FuncArgLoopStep spec e⟩

/-- The fuel-zero engine: every operation reports fuel exhaustion. -/
def engineZero : Engine :=
  ⟨fun _ _ => .error .outOfFuel, fun _ _ _ => .error .outOfFuel,
   fun _ _ => .error .outOfFuel⟩

/-- The fuel-indexed engine for a given operator table. -/
def engine (spec : ParserSpec) : Nat → Engine
  | 0 => engineZero
  | fuel + 1 => mkEngine spec (engine spec fuel)

/-- `Parser.Parse`: prime the lookahead (`self.Next()`), then
`ParseUntil(0)`. -/
def startState (ts : List Token) : PState := Next ⟨eofToken, ts⟩

/-- Fuel linear in the token count; proved sufficient below. -/
def defaultFuel (ts : List Token) : Nat := 2 * ts.length + 4

/-- `Parser.Parse` over a token list. -/
def ParseTokens (spec : ParserSpec) (ts : List Token) : PResult :=
  (engine spec (defaultFuel ts)).ParseUntil 0 (startState ts)

/-- `ParseShell`: lex and parse one expression with the arithmetic
grammar, returning the tree. -/
def ParseShell (s : String) : Except ParseErr Node :=
  (ParseTokens shellSpec (Tokenize s)).map Prod.fst

/-- The canonical rendering of `ParseShell`'s result (`repr(tree)`). -/
def ParseShellRender (s : String) : Except ParseErr String :=
  (ParseShell s).map Node.render

end Tdop
namespace Tdop

/-- Token at position `i` (0-based) of the stream the parser observes:
the lookahead after `i + 1` calls of `Parser.Next` starting from the fresh
parser (whose `token` field is still unset — `Next` ignores it). -/
def streamAt (ts : List Token) (i : Nat) : Token :=
  (Next^[i + 1] ⟨eofToken, ts⟩).cur

/-- Whether a result is the embedding's fuel-exhaustion marker. -/
def isOutOfFuel {α : Type} : Except ParseErr α → Bool
  | .error .outOfFuel => true
  | _ => false

end Tdop
namespace Tdop

/-! ### Fuel-adequacy predicates

The source's `ParseUntil` always consumes at least one token before any
recursive call, so on the finite token stream the recursion depth and the
loop counts are bounded by the number of remaining tokens.  In the embedding
this becomes: fuel linear in `PState.size` is enough for the corresponding
engine operation never to return the `outOfFuel` marker, and a successful
`ParseUntil` strictly shrinks the state. -/

/-- Fuel adequacy of `ParseUntil` at level `f` for the shell grammar. -/
def PUOk (f : Nat) : Prop :=
  ∀ (rbp : Int) (st : PState), 2 * st.size + 1 ≤ f →
    (engine shellSpec f).ParseUntil rbp st ≠ .error .outOfFuel ∧
    ∀ nd st', (engine shellSpec f).ParseUntil rbp st = .ok (nd, st') →
      st'.size < st.size

/-- Fuel adequacy of the infix loop at level `f` for the shell grammar. -/
def PLOk (f : Nat) : Prop :=
  ∀ (rbp : Int) (nd : Node) (st : PState), 2 * st.size + 2 ≤ f →
    (engine shellSpec f).ParseLoop rbp nd st ≠ .error .outOfFuel ∧
    ∀ nd' st', (engine shellSpec f).ParseLoop rbp nd st = .ok (nd', st') →
      st'.size ≤ st.size

/-- Fuel adequacy of the call-argument loop at level `f` for the shell
grammar. -/
def PAOk (f : Nat) : Prop :=
  ∀ (ch : List Node) (st : PState), 2 * st.size + 2 ≤ f →
    (engine shellSpec f).FuncArgLoop ch st ≠ .error .outOfFuel ∧
    ∀ ch' st', (engine shellSpec f).FuncArgLoop ch st = .ok (ch', st') →
      st'.size ≤ st.size

/-! ## Helper lemmas -/

/-- Iterating `Next` on an exhausted state is stationary. -/
theorem next_iterate_exhausted (k : Nat) :
    Next^[k] (⟨eofToken, []⟩ : PState) = ⟨eofToken, []⟩ := by
  induction k with
  | zero => rfl
  | succ k ih => rw [Function.iterate_succ_apply]; exact ih

/-- The lookahead after `i + 1` calls of `Next` is the `i`-th remaining token,
the end-of-input sentinel when the stream is exhausted. -/
theorem next_iterate_cur (ts : List Token) : ∀ (c : Token) (i : Nat),
    ((Next^[i + 1]) (⟨c, ts⟩ : PState)).cur = ts.getD i eofToken := by
  induction ts with
  | nil =>
    intro c i
    rw [Function.iterate_succ_apply]
    show (Next^[i] (⟨eofToken, []⟩ : PState)).cur = _
    rw [next_iterate_exhausted]
    simp [List.getD]
  | cons t ts ih =>
    intro c i
    rw [Function.iterate_succ_apply]
    show ((Next^[i]) (⟨t, ts⟩ : PState)).cur = _
    cases i with
    | zero => simp [List.getD]
    | succ j =>
      rw [show (Next^[j + 1]) (⟨t, ts⟩ : PState) = Next^[j + 1] ⟨t, ts⟩ from rfl]
      rw [ih t j]
      simp [List.getD]

/-- An operator-run token's kind starts with an operator character, so it is
never the end-of-input kind. -/
theorem opRun_ne_eof {c : Char} {l : List Char} (hc : isOpChar c = true) :
    String.mk (c :: l) ≠ "eof" := by
  intro h
  have hd : c :: l = ['e', 'o', 'f'] := congrArg String.data h
  have hce : c = 'e' := (List.cons_eq_cons.mp hd).1
  subst hce
  simp [isOpChar] at hc

/-- A single-character token kind is never the three-character kind `eof`. -/
theorem single_ne_eof (c : Char) : String.mk [c] ≠ "eof" := by
  intro h
  have hd : [c] = ['e', 'o', 'f'] := congrArg String.data h
  simp at hd

/-- The raw lexer never yields a token of the end-of-input kind. -/
theorem tokenizeAux_no_eof : ∀ (fuel : Nat) (cs : List Char) (t : Token),
    t ∈ tokenizeAux fuel cs → t.type ≠ "eof" := by
  intro fuel
  induction fuel with
  | zero => intro cs t h; simp [tokenizeAux] at h
  | succ fuel ih =>
    intro cs t h
    match cs with
    | [] => simp [tokenizeAux] at h
    | c :: cs' =>
      simp only [tokenizeAux] at h
      split at h
      · exact ih _ _ h
      · split at h
        · rcases List.mem_cons.mp h with rfl | h'
          · simp
          · exact ih _ _ h'
        · split at h
          · rcases List.mem_cons.mp h with rfl | h'
            · simp
            · exact ih _ _ h'
          · split at h
            · rename_i hop
              rcases List.mem_cons.mp h with rfl | h'
              · exact opRun_ne_eof hop
              · exact ih _ _ h'
            · split at h
              · rcases List.mem_cons.mp h with rfl | h'
                · exact single_ne_eof c
                · exact ih _ _ h'
              · exact ih _ _ h

/-- Inserting a key into a Python-dict association list leaves other keys'
lookups unchanged. -/
theorem findVal_cons_ne {β : Type} {k k' : String} (v : β)
    (l : List (String × β)) (h : k ≠ k') :
    findVal k ((k', v) :: l) = findVal k l := by
  simp [findVal, h]

/-- `_RegisterLed` over a token list not containing `tok` leaves `tok`'s
infix row unchanged. -/
theorem registerLed_preserves (lbp rbp : Int) (led : LedHandler) :
    ∀ (tokens : List String) (spec : ParserSpec) (tok : String), tok ∉ tokens →
    findVal tok (spec.RegisterLed lbp rbp led tokens).left_lookup =
      findVal tok spec.left_lookup := by
  intro tokens
  induction tokens with
  | nil => intro spec tok _; rfl
  | cons x xs ih =>
    intro spec tok h
    rw [List.mem_cons, not_or] at h
    show findVal tok
      (ParserSpec.RegisterLed _ lbp rbp led xs).left_lookup = _
    rw [ih _ _ h.2]
    exact findVal_cons_ne _ _ h.1

/-- `_RegisterLed` installs exactly the row `(led, lbp, rbp)` for each
registered token kind. -/
theorem registerLed_lookupLeft (lbp rbp : Int) (led : LedHandler) :
    ∀ (tokens : List String) (spec : ParserSpec) (tok : String), tok ∈ tokens →
    (spec.RegisterLed lbp rbp led tokens).LookupLeft tok =
      .ok ⟨led, lbp, rbp⟩ := by
  intro tokens
  induction tokens with
  | nil => intro _ _ h; cases h
  | cons x xs ih =>
    intro spec tok h
    by_cases hx : tok ∈ xs
    · exact ih _ _ hx
    · have htx : tok = x := by
        rcases List.mem_cons.mp h with h' | h'
        · exact h'
        · exact absurd h' hx
      subst htx
      show ((spec.registerLedStep lbp rbp led tok).RegisterLed
        lbp rbp led xs).LookupLeft tok = _
      unfold ParserSpec.LookupLeft
      rw [registerLed_preserves lbp rbp led xs _ tok hx]
      simp [ParserSpec.registerLedStep, findVal]

end Tdop
namespace Tdop

/-! ## Claim theorems -/

/-- C1 counterexample: on the input `f(a, b)[0]` `Parse` does NOT succeed.
The call handler relabels the `(` token's kind to `call`, and the index
handler accepts only a left operand of kind `name` or `get`, so it raises
"can't be indexed" on the call node; no tree is returned and in particular
the claimed rendering `(element-access (call f a b) 0)` is never produced. -/
theorem C1_counterexample :
    (ParseShell "f(a, b)[0]").isOk = false ∧
    ParseShell "f(a, b)[0]" = .error (.cantIndex (.composite ⟨"call", .str "("⟩
      [.leaf ⟨"name", .str "f"⟩, .leaf ⟨"name", .str "a"⟩,
       .leaf ⟨"name", .str "b"⟩])) :=
  ⟨rfl, rfl⟩

/-- C1 amended: for the input `f(a, b)[0]`, Parse raises the
invalid-index-target error on the call node (whose kind was relabeled to
`call`, which the index handler does not accept); the index handler relabels
the `[` token's kind to `get` (not `element-access`) and builds a 2-child
composite over an indexable (name or prior index) node and the index, as in
`a[0]` → `(get a 0)` and the chained `a[i][j]` → `(get (get a i) j)`. -/
theorem C1_amended_index :
    ParseShell "f(a, b)[0]" = .error (.cantIndex (.composite ⟨"call", .str "("⟩
      [.leaf ⟨"name", .str "f"⟩, .leaf ⟨"name", .str "a"⟩,
       .leaf ⟨"name", .str "b"⟩])) ∧
    ParseShellRender "a[0]" = .ok "(get a 0)" ∧
    ParseShellRender "a[i][j]" = .ok "(get (get a i) j)" :=
  ⟨rfl, rfl, rfl⟩

/-- C2 counterexample: on the empty input the source text is exhausted at
once and the lexer-backed token sequence observed through `Parser.Next`
yields the implicit end-of-input token at position 0 AND again at position 1
— it does not yield it exactly once and then stop.  (The raw `Tokenize`
generator itself yields no end-of-input token at all: `Tokenize "" = []`.) -/
theorem C2_counterexample :
    Tokenize "" = [] ∧
    streamAt (Tokenize "") 0 = eofToken ∧
    streamAt (Tokenize "") 1 = eofToken :=
  ⟨rfl, rfl, rfl⟩

/-- C2 amended: the raw lexer generator stops on exhaustion without yielding
any end-of-input token (no token it yields has kind `eof`); the implicit
end-of-input token is synthesized by `Parser.Next` on every request past
exhaustion, so the stream the parser observes is the lexed tokens followed by
the end-of-input token at EVERY later position, not exactly once. -/
theorem C2_amended_stream (ts : List Token) (i : Nat) (s : String) (t : Token)
    (h : t ∈ Tokenize s) :
    streamAt ts i = ts.getD i eofToken ∧ t.type ≠ "eof" :=
  ⟨next_iterate_cur ts eofToken i, tokenizeAux_no_eof _ _ t h⟩

theorem C2_amended_stream_witness :
    (⟨"name", .str "a"⟩ : Token) ∈ Tokenize "a" ∧
    (streamAt [] 0 = List.getD [] 0 eofToken ∧
      (Token.mk "name" (.str "a")).type ≠ "eof") := by
  have h : (⟨"name", .str "a"⟩ : Token) ∈ Tokenize "a" := by
    rw [show Tokenize "a" = [⟨"name", .str "a"⟩] from rfl]
    exact List.mem_singleton.mpr rfl
  exact ⟨h, C2_amended_stream [] 0 "a" _ h⟩

/-- C4: registering a right-associative infix operator with binding power
`bp` installs left binding power `bp` and right binding power `bp - 1`, and
the operators registered this way parse right-nested:
`2 ** 3 ** 2` → `(** 2 (** 3 2))` and `a = b = 2` → `(= a (= b 2))`. -/
theorem C4_right_assoc (spec : ParserSpec) (bp : Int) (led : LedHandler)
    (tokens : List String) (tok : String) (h : tok ∈ tokens) :
    (spec.LeftRightAssoc bp led tokens).LookupLeft tok =
      .ok ⟨led, bp, bp - 1⟩ ∧
    ParseShellRender "2 ** 3 ** 2" = .ok "(** 2 (** 3 2))" ∧
    ParseShellRender "a = b = 2" = .ok "(= a (= b 2))" :=
  ⟨registerLed_lookupLeft bp (bp - 1) led tokens spec tok h, rfl, rfl⟩

theorem C4_right_assoc_witness :
    ("**" ∈ ["**"]) ∧
    (((ParserSpec.mk [] []).LeftRightAssoc 27 .BinaryOp ["**"]).LookupLeft "**" =
        .ok ⟨.BinaryOp, 27, 27 - 1⟩ ∧
      ParseShellRender "2 ** 3 ** 2" = .ok "(** 2 (** 3 2))" ∧
      ParseShellRender "a = b = 2" = .ok "(= a (= b 2))") :=
  ⟨List.mem_singleton.mpr rfl,
   C4_right_assoc ⟨[], []⟩ 27 .BinaryOp ["**"] "**" (List.mem_singleton.mpr rfl)⟩

/-- C5: the ternary handler parses the true branch at the minimum binding
power 0 and the false branch at the right binding power it was handed, so any
operator is allowed between `?` and `:` and nested ternaries right-chain:
`a ? b + c : d` → `(? a (+ b c) d)` and
`a ? b : c ? d : e` → `(? a b (? c d e))`. -/
theorem C5_ternary (e : Engine) (tok : Token) (left : Node) (bp : Int)
    (st st1 st2 : PState) (true_expr : Node)
    (h1 : e.ParseUntil 0 st = .ok (true_expr, st1))
    (h2 : Eat ":" st1 = .ok st2) :
    (LeftTernary e tok left bp st =
      match e.ParseUntil bp st2 with
      | .error err => .error err
      | .ok (false_expr, st3) =>
          .ok (.composite tok [left, true_expr, false_expr], st3)) ∧
    ParseShellRender "a ? b + c : d" = .ok "(? a (+ b c) d)" ∧
    ParseShellRender "a ? b : c ? d : e" = .ok "(? a b (? c d e))" := by
  refine ⟨?_, rfl, rfl⟩
  simp only [LeftTernary, h1, h2]

theorem C5_ternary_witness :
    ((engine shellSpec 8).ParseUntil 0
        ⟨⟨"name", .str "b"⟩, [⟨":", .str ":"⟩, ⟨"name", .str "d"⟩]⟩ =
      .ok (.leaf ⟨"name", .str "b"⟩,
        ⟨⟨":", .str ":"⟩, [⟨"name", .str "d"⟩]⟩)) ∧
    (Eat ":" ⟨⟨":", .str ":"⟩, [⟨"name", .str "d"⟩]⟩ =
      .ok ⟨⟨"name", .str "d"⟩, []⟩) ∧
    ((LeftTernary (engine shellSpec 8) ⟨"?", .str "?"⟩
        (.leaf ⟨"name", .str "a"⟩) 4
        ⟨⟨"name", .str "b"⟩, [⟨":", .str ":"⟩, ⟨"name", .str "d"⟩]⟩ =
      match (engine shellSpec 8).ParseUntil 4 ⟨⟨"name", .str "d"⟩, []⟩ with
      | .error err => .error err
      | .ok (false_expr, st3) =>
          .ok (.composite ⟨"?", .str "?"⟩ [.leaf ⟨"name", .str "a"⟩,
            .leaf ⟨"name", .str "b"⟩, false_expr], st3)) ∧
      ParseShellRender "a ? b + c : d" = .ok "(? a (+ b c) d)" ∧
      ParseShellRender "a ? b : c ? d : e" = .ok "(? a b (? c d e))") :=
  ⟨rfl, rfl, C5_ternary (engine shellSpec 8) ⟨"?", .str "?"⟩
    (.leaf ⟨"name", .str "a"⟩) 4
    ⟨⟨"name", .str "b"⟩, [⟨":", .str ":"⟩, ⟨"name", .str "d"⟩]⟩
    ⟨⟨":", .str ":"⟩, [⟨"name", .str "d"⟩]⟩
    ⟨⟨"name", .str "d"⟩, []⟩
    (.leaf ⟨"name", .str "b"⟩) rfl rfl⟩

/-- C6: the increment/decrement handlers distinguish postfix from prefix and
enforce the lvalue-shape precondition: `x++` → `(post++ x)`, `++x` → `(++ x)`,
while `5++` and `++5` raise the can't-assign error carrying the offending
number node. -/
theorem C6_incdec :
    ParseShellRender "x++" = .ok "(post++ x)" ∧
    ParseShellRender "++x" = .ok "(++ x)" ∧
    ParseShell "5++" = .error (.cantAssign (.leaf ⟨"number", .num 5⟩)) ∧
    ParseShell "++5" = .error (.cantAssign (.leaf ⟨"number", .num 5⟩)) :=
  ⟨rfl, rfl, rfl, rfl⟩

/-- C7: comma expressions flatten: `a, b, c` parses to a single
comma-kinded composite with exactly the three children `a`, `b`, `c`, not a
nested pair of 2-child comma nodes. -/
theorem C7_comma_flatten :
    ParseShell "a, b, c" = .ok (.composite ⟨",", .str ","⟩
      [.leaf ⟨"name", .str "a"⟩, .leaf ⟨"name", .str "b"⟩,
       .leaf ⟨"name", .str "c"⟩]) ∧
    (ParseShell "a, b, c").map (fun n => n.children.length) = .ok 3 :=
  ⟨rfl, rfl⟩

/-- C8: whenever `ParseUntil` is entered (with any fuel left) on the
end-of-input sentinel, it raises the unexpected-end-of-input error — so no
tree is returned; in particular on empty input and after the dangling infix
operator in `1 +`. -/
theorem C8_eof_required (spec : ParserSpec) (fuel : Nat) (rbp : Int)
    (st : PState) (h : st.cur.type = "eof") :
    (engine spec (fuel + 1)).ParseUntil rbp st = .error .unexpectedEOI ∧
    ParseShell "" = .error .unexpectedEOI ∧
    ParseShell "1 +" = .error .unexpectedEOI := by
  refine ⟨?_, rfl, rfl⟩
  simp only [engine, mkEngine, ParseUntilStep, h, if_true]

theorem C8_eof_required_witness :
    (PState.mk eofToken []).cur.type = "eof" ∧
    ((engine shellSpec 1).ParseUntil 0 ⟨eofToken, []⟩ =
        .error .unexpectedEOI ∧
      ParseShell "" = .error .unexpectedEOI ∧
      ParseShell "1 +" = .error .unexpectedEOI) :=
  ⟨rfl, C8_eof_required shellSpec 0 0 ⟨eofToken, []⟩ rfl⟩

/-- C10: grouping parentheses do not shield a comma expression from later
flattening: `(a, b), c` parses to a single comma node with exactly the three
children `a`, `b`, `c`, because the grouping handler returns the inner comma
node itself and the comma handler then appends `c` to that node's children. -/
theorem C10_paren_comma_flatten :
    ParseShell "(a, b), c" = .ok (.composite ⟨",", .str ","⟩
      [.leaf ⟨"name", .str "a"⟩, .leaf ⟨"name", .str "b"⟩,
       .leaf ⟨"name", .str "c"⟩]) ∧
    (ParseShell "(a, b), c").map (fun n => n.children.length) = .ok 3 :=
  ⟨rfl, rfl⟩

end Tdop
namespace Tdop

/-! ## Termination of the engine -/

/-- `Next` never grows the remaining-token measure. -/
theorem size_Next_le (st : PState) : (Next st).size ≤ st.size := by
  rcases st with ⟨cur, rest⟩
  cases rest with
  | nil => simp [Next, PState.size, eofToken]
  | cons t ts =>
    simp only [Next, PState.size, List.length_cons]
    split <;> split <;> omega

/-- Consuming a non-sentinel lookahead strictly shrinks the measure. -/
theorem size_Next_lt (st : PState) (h : st.cur.type ≠ "eof") :
    (Next st).size < st.size := by
  rcases st with ⟨cur, rest⟩
  cases rest with
  | nil => simp_all [Next, PState.size, eofToken]
  | cons t ts =>
    simp only [Next, PState.size, List.length_cons] at *
    rw [if_neg h]
    split <;> omega

/-- `Eat` either advances past the expected token or reports the mismatch. -/
theorem Eat_cases (val : String) (st : PState) :
    (Eat val st = .ok (Next st) ∧ (val ≠ "" → st.cur.type = val)) ∨
    Eat val st = .error (.eatMismatch val st.cur) := by
  unfold Eat
  split
  · right; rfl
  · rename_i hcond
    left
    refine ⟨rfl, fun hv => ?_⟩
    rcases not_and_or.mp hcond with h | h
    · exact absurd hv h
    · exact not_not.mp h

/-- A failed infix-table lookup reports the unexpected token, nothing else. -/
theorem LookupLeft_error {spec : ParserSpec} {ty : String} {err : ParseErr}
    (h : spec.LookupLeft ty = .error err) : err = .unexpectedToken ty := by
  unfold ParserSpec.LookupLeft at h
  cases hf : findVal ty spec.left_lookup with
  | some li => rw [hf] at h; exact Except.noConfusion h
  | none =>
    rw [hf] at h
    injection h with h'
    exact h'.symm

/-- A failed prefix-table lookup reports the unexpected token, nothing
else. -/
theorem LookupNull_error {spec : ParserSpec} {ty : String} {err : ParseErr}
    (h : spec.LookupNull ty = .error err) : err = .unexpectedToken ty := by
  unfold ParserSpec.LookupNull at h
  cases hf : findVal ty spec.null_lookup with
  | some ni => rw [hf] at h; exact Except.noConfusion h
  | none =>
    rw [hf] at h
    injection h with h'
    exact h'.symm

/-- In the shell grammar the sentinel's infix row is the error row. -/
theorem lookupLeft_eof_shell :
    shellSpec.LookupLeft "eof" = .ok ⟨.Error, 0, 0⟩ := rfl

/-- The very first token consumed by `Parse` leaves at most the token count
as measure. -/
theorem startState_size_le (ts : List Token) :
    (startState ts).size ≤ ts.length := by
  cases ts with
  | nil => simp [startState, Next, PState.size, eofToken]
  | cons t ts' =>
    simp only [startState, Next, PState.size, List.length_cons]
    split <;> omega

end Tdop
namespace Tdop

/-- A null-denotation handler run against an adequate lower engine neither
exhausts fuel nor grows the state. -/
theorem runNud_fuelOk (f : Nat) (hU : PUOk f) (nh : NudHandler) (t : Token)
    (bp : Int) (st : PState) (hsz : 2 * st.size + 1 ≤ f) :
    runNud nh (engine shellSpec f) t bp st ≠ .error .outOfFuel ∧
    ∀ nd st', runNud nh (engine shellSpec f) t bp st = .ok (nd, st') →
      st'.size ≤ st.size := by
  cases nh with
  | Constant =>
    refine ⟨by simp [runNud, NullConstant], ?_⟩
    intro nd st' h
    simp only [runNud, NullConstant, Except.ok.injEq, Prod.mk.injEq] at h
    rw [← h.2]
  | Error =>
    refine ⟨by simp [runNud, NullError], ?_⟩
    intro nd st' h
    simp only [runNud, NullError] at h
    exact Except.noConfusion h
  | Paren =>
    obtain ⟨hne, hok⟩ := hU bp st hsz
    cases h1 : (engine shellSpec f).ParseUntil bp st with
    | error err =>
      constructor
      · simp only [runNud, NullParen, h1]
        exact fun hc => hne (h1.trans hc)
      · intro nd st' h
        simp only [runNud, NullParen, h1] at h
        exact Except.noConfusion h
    | ok p =>
      obtain ⟨r, st1⟩ := p
      have hlt := hok r st1 h1
      rcases Eat_cases ")" st1 with ⟨h2, _⟩ | h2
      · constructor
        · simp [runNud, NullParen, h1, h2]
        · intro nd st' h
          simp only [runNud, NullParen, h1, h2, Except.ok.injEq,
            Prod.mk.injEq] at h
          rw [← h.2]
          have := size_Next_le st1
          omega
      · constructor
        · simp [runNud, NullParen, h1, h2]
        · intro nd st' h
          simp only [runNud, NullParen, h1, h2] at h
          exact Except.noConfusion h
  | PrefixOp =>
    obtain ⟨hne, hok⟩ := hU bp st hsz
    cases h1 : (engine shellSpec f).ParseUntil bp st with
    | error err =>
      constructor
      · simp only [runNud, NullPrefixOp, h1]
        exact fun hc => hne (h1.trans hc)
      · intro nd st' h
        simp only [runNud, NullPrefixOp, h1] at h
        exact Except.noConfusion h
    | ok p =>
      obtain ⟨r, st1⟩ := p
      have hlt := hok r st1 h1
      constructor
      · simp [runNud, NullPrefixOp, h1]
      · intro nd st' h
        simp only [runNud, NullPrefixOp, h1, Except.ok.injEq,
          Prod.mk.injEq] at h
        rw [← h.2]
        omega
  | IncDec =>
    obtain ⟨hne, hok⟩ := hU bp st hsz
    cases h1 : (engine shellSpec f).ParseUntil bp st with
    | error err =>
      constructor
      · simp only [runNud, NullIncDec, h1]
        exact fun hc => hne (h1.trans hc)
      · intro nd st' h
        simp only [runNud, NullIncDec, h1] at h
        exact Except.noConfusion h
    | ok p =>
      obtain ⟨r, st1⟩ := p
      have hlt := hok r st1 h1
      constructor
      · simp only [runNud, NullIncDec, h1]
        split <;> simp
      · intro nd st' h
        simp only [runNud, NullIncDec, h1] at h
        split at h
        · exact Except.noConfusion h
        · rw [Except.ok.injEq, Prod.mk.injEq] at h
          rw [← h.2]
          omega

end Tdop
namespace Tdop

/-- A left-denotation handler run against an adequate lower engine neither
exhausts fuel nor grows the state. -/
theorem runLed_fuelOk (f : Nat) (hU : PUOk f) (hA : PAOk f) (lh : LedHandler)
    (t : Token) (left : Node) (rbp : Int) (st : PState)
    (hsz : 2 * st.size + 2 ≤ f) :
    runLed lh (engine shellSpec f) t left rbp st ≠ .error .outOfFuel ∧
    ∀ nd st', runLed lh (engine shellSpec f) t left rbp st = .ok (nd, st') →
      st'.size ≤ st.size := by
  cases lh with
  | Error =>
    refine ⟨by simp [runLed, LeftError], ?_⟩
    intro nd st' h
    simp only [runLed, LeftError] at h
    exact Except.noConfusion h
  | IncDec =>
    constructor
    · simp only [runLed, LeftIncDec]
      split <;> simp
    · intro nd st' h
      simp only [runLed, LeftIncDec] at h
      split at h
      · exact Except.noConfusion h
      · rw [Except.ok.injEq, Prod.mk.injEq] at h
        rw [← h.2]
  | BinaryOp =>
    obtain ⟨hne, hok⟩ := hU rbp st (by omega)
    cases h1 : (engine shellSpec f).ParseUntil rbp st with
    | error err =>
      constructor
      · simp only [runLed, LeftBinaryOp, h1]
        exact fun hc => hne (h1.trans hc)
      · intro nd st' h
        simp only [runLed, LeftBinaryOp, h1] at h
        exact Except.noConfusion h
    | ok p =>
      obtain ⟨r, st1⟩ := p
      have hlt := hok r st1 h1
      constructor
      · simp [runLed, LeftBinaryOp, h1]
      · intro nd st' h
        simp only [runLed, LeftBinaryOp, h1, Except.ok.injEq,
          Prod.mk.injEq] at h
        rw [← h.2]
        omega
  | Assign =>
    obtain ⟨hne, hok⟩ := hU rbp st (by omega)
    cases h1 : (engine shellSpec f).ParseUntil rbp st with
    | error err =>
      constructor
      · simp only [runLed, LeftAssign, h1]
        split
        · simp
        · exact fun hc => hne (h1.trans hc)
      · intro nd st' h
        simp only [runLed, LeftAssign, h1] at h
        split at h <;> exact Except.noConfusion h
    | ok p =>
      obtain ⟨r, st1⟩ := p
      have hlt := hok r st1 h1
      constructor
      · simp only [runLed, LeftAssign, h1]
        split <;> simp
      · intro nd st' h
        simp only [runLed, LeftAssign, h1] at h
        split at h
        · exact Except.noConfusion h
        · rw [Except.ok.injEq, Prod.mk.injEq] at h
          rw [← h.2]
          omega
  | Comma =>
    obtain ⟨hne, hok⟩ := hU rbp st (by omega)
    cases h1 : (engine shellSpec f).ParseUntil rbp st with
    | error err =>
      constructor
      · simp only [runLed, LeftComma, h1]
        exact fun hc => hne (h1.trans hc)
      · intro nd st' h
        simp only [runLed, LeftComma, h1] at h
        exact Except.noConfusion h
    | ok p =>
      obtain ⟨r, st1⟩ := p
      have hlt := hok r st1 h1
      constructor
      · simp only [runLed, LeftComma, h1]
        split <;> simp
      · intro nd st' h
        simp only [runLed, LeftComma, h1] at h
        split at h <;>
          (rw [Except.ok.injEq, Prod.mk.injEq] at h; rw [← h.2]; omega)
  | Index =>
    obtain ⟨hne, hok⟩ := hU 0 st (by omega)
    cases h1 : (engine shellSpec f).ParseUntil 0 st with
    | error err =>
      constructor
      · simp only [runLed, LeftIndex, h1]
        split
        · simp
        · exact fun hc => hne (h1.trans hc)
      · intro nd st' h
        simp only [runLed, LeftIndex, h1] at h
        split at h <;> exact Except.noConfusion h
    | ok p =>
      obtain ⟨r, st1⟩ := p
      have hlt := hok r st1 h1
      rcases Eat_cases "]" st1 with ⟨h2, _⟩ | h2
      · constructor
        · simp only [runLed, LeftIndex, h1, h2]
          split <;> simp
        · intro nd st' h
          simp only [runLed, LeftIndex, h1, h2] at h
          split at h
          · exact Except.noConfusion h
          · rw [Except.ok.injEq, Prod.mk.injEq] at h
            rw [← h.2]
            have := size_Next_le st1
            omega
      · constructor
        · simp only [runLed, LeftIndex, h1, h2]
          split <;> simp
        · intro nd st' h
          simp only [runLed, LeftIndex, h1, h2] at h
          split at h <;> exact Except.noConfusion h
  | Ternary =>
    obtain ⟨hne, hok⟩ := hU 0 st (by omega)
    cases h1 : (engine shellSpec f).ParseUntil 0 st with
    | error err =>
      constructor
      · simp only [runLed, LeftTernary, h1]
        exact fun hc => hne (h1.trans hc)
      · intro nd st' h
        simp only [runLed, LeftTernary, h1] at h
        exact Except.noConfusion h
    | ok p =>
      obtain ⟨r, st1⟩ := p
      have hlt := hok r st1 h1
      rcases Eat_cases ":" st1 with ⟨h2, _⟩ | h2
      · have hnle := size_Next_le st1
        obtain ⟨hne2, hok2⟩ := hU rbp (Next st1) (by omega)
        cases h3 : (engine shellSpec f).ParseUntil rbp (Next st1) with
        | error err =>
          constructor
          · simp only [runLed, LeftTernary, h1, h2, h3]
            exact fun hc => hne2 (h3.trans hc)
          · intro nd st' h
            simp only [runLed, LeftTernary, h1, h2, h3] at h
            exact Except.noConfusion h
        | ok q =>
          obtain ⟨r2, st3⟩ := q
          have hlt2 := hok2 r2 st3 h3
          constructor
          · simp [runLed, LeftTernary, h1, h2, h3]
          · intro nd st' h
            simp only [runLed, LeftTernary, h1, h2, h3, Except.ok.injEq,
              Prod.mk.injEq] at h
            rw [← h.2]
            omega
      · constructor
        · simp [runLed, LeftTernary, h1, h2]
        · intro nd st' h
          simp only [runLed, LeftTernary, h1, h2] at h
          exact Except.noConfusion h
  | FuncCall =>
    obtain ⟨hneA, hokA⟩ := hA [left] st hsz
    cases h1 : (engine shellSpec f).FuncArgLoop [left] st with
    | error err =>
      constructor
      · simp only [runLed, LeftFuncCall, h1]
        split
        · simp
        · intro hc
          injection hc with h'
          subst h'
          exact hneA h1
      · intro nd st' h
        simp only [runLed, LeftFuncCall, h1] at h
        split at h <;> exact Except.noConfusion h
    | ok p =>
      obtain ⟨children, st1⟩ := p
      have hle := hokA children st1 h1
      rcases Eat_cases ")" st1 with ⟨h2, _⟩ | h2
      · constructor
        · simp only [runLed, LeftFuncCall, h1, h2]
          split <;> simp
        · intro nd st' h
          simp only [runLed, LeftFuncCall, h1, h2] at h
          split at h
          · exact Except.noConfusion h
          · rw [Except.ok.injEq, Prod.mk.injEq] at h
            rw [← h.2]
            have := size_Next_le st1
            omega
      · constructor
        · simp only [runLed, LeftFuncCall, h1, h2]
          split <;> simp
        · intro nd st' h
          simp only [runLed, LeftFuncCall, h1, h2] at h
          split at h <;> exact Except.noConfusion h

end Tdop
namespace Tdop

/-- Fuel linear in the remaining-token measure is always enough: at every
level the engine never reports fuel exhaustion when run within the stated
bound, and consumes tokens monotonically. -/
theorem engine_fuel_ok : ∀ f : Nat, PUOk f ∧ PLOk f ∧ PAOk f := by
  intro f
  induction f with
  | zero =>
    refine ⟨fun rbp st h => absurd h (by omega),
            fun rbp nd st h => absurd h (by omega),
            fun ch st h => absurd h (by omega)⟩
  | succ f ih =>
    obtain ⟨ihU, ihL, ihA⟩ := ih
    have hL : PLOk (f + 1) := by
      intro rbp nd st hsz
      have hstep : (engine shellSpec (f + 1)).ParseLoop =
          ParseLoopStep shellSpec (engine shellSpec f) := rfl
      rw [hstep]
      cases hlk : shellSpec.LookupLeft st.cur.type with
      | error err =>
        constructor
        · simp only [ParseLoopStep, hlk]
          have herr := LookupLeft_error hlk
          subst herr
          simp
        · intro nd' st' h
          simp only [ParseLoopStep, hlk] at h
          exact Except.noConfusion h
      | ok li =>
        by_cases hbr : li.lbp ≤ rbp
        · constructor
          · simp only [ParseLoopStep, hlk]
            rw [if_pos hbr]
            simp
          · intro nd' st' h
            simp only [ParseLoopStep, hlk] at h
            rw [if_pos hbr, Except.ok.injEq, Prod.mk.injEq] at h
            rw [← h.2]
        · by_cases hled : li.led = .Error
          · constructor
            · simp only [ParseLoopStep, hlk]
              rw [if_neg hbr, hled]
              simp [runLed, LeftError]
            · intro nd' st' h
              simp only [ParseLoopStep, hlk] at h
              rw [if_neg hbr, hled] at h
              simp only [runLed, LeftError] at h
              exact Except.noConfusion h
          · have hne_eof : st.cur.type ≠ "eof" := by
              intro he
              rw [he, lookupLeft_eof_shell] at hlk
              injection hlk with h'
              rw [← h'] at hled
              exact hled rfl
            have hnext := size_Next_lt st hne_eof
            have hled_ok := runLed_fuelOk f ihU ihA li.led st.cur nd li.rbp
              (Next st) (by omega)
            cases hrl : runLed li.led (engine shellSpec f) st.cur nd li.rbp
                (Next st) with
            | error err =>
              constructor
              · simp only [ParseLoopStep, hlk, hrl]
                rw [if_neg hbr]
                exact fun hc => hled_ok.1 (hrl.trans hc)
              · intro nd' st' h
                simp only [ParseLoopStep, hlk, hrl] at h
                rw [if_neg hbr] at h
                exact Except.noConfusion h
            | ok p =>
              obtain ⟨nd2, st2⟩ := p
              have hsz2 := hled_ok.2 nd2 st2 hrl
              have hcont := ihL rbp nd2 st2 (by omega)
              cases hpl : (engine shellSpec f).ParseLoop rbp nd2 st2 with
              | error err2 =>
                constructor
                · simp only [ParseLoopStep, hlk, hrl, hpl]
                  rw [if_neg hbr]
                  exact fun hc => hcont.1 (hpl.trans hc)
                · intro nd' st' h
                  simp only [ParseLoopStep, hlk, hrl, hpl] at h
                  rw [if_neg hbr] at h
                  exact Except.noConfusion h
              | ok q =>
                obtain ⟨nd3, st3⟩ := q
                have hsz3 := hcont.2 nd3 st3 hpl
                constructor
                · simp only [ParseLoopStep, hlk, hrl, hpl]
                  rw [if_neg hbr]
                  simp
                · intro nd' st' h
                  simp only [ParseLoopStep, hlk, hrl, hpl] at h
                  rw [if_neg hbr, Except.ok.injEq, Prod.mk.injEq] at h
                  rw [← h.2]
                  omega
    have hUp : PUOk (f + 1) := by
      intro rbp st hsz
      have hstep : (engine shellSpec (f + 1)).ParseUntil =
          ParseUntilStep shellSpec (engine shellSpec f) := rfl
      rw [hstep]
      by_cases heof : st.cur.type = "eof"
      · constructor
        · simp only [ParseUntilStep, heof]
          simp
        · intro nd st' h
          simp only [ParseUntilStep] at h
          rw [if_pos heof] at h
          exact Except.noConfusion h
      · have hnext := size_Next_lt st heof
        cases hln : shellSpec.LookupNull st.cur.type with
        | error err =>
          constructor
          · simp only [ParseUntilStep, hln]
            rw [if_neg heof]
            have herr := LookupNull_error hln
            subst herr
            simp
          · intro nd st' h
            simp only [ParseUntilStep, hln] at h
            rw [if_neg heof] at h
            exact Except.noConfusion h
        | ok ni =>
          have hnud := runNud_fuelOk f ihU ni.nud st.cur ni.bp (Next st)
            (by omega)
          cases hrn : runNud ni.nud (engine shellSpec f) st.cur ni.bp
              (Next st) with
          | error err =>
            constructor
            · simp only [ParseUntilStep, hln, hrn]
              rw [if_neg heof]
              exact fun hc => hnud.1 (hrn.trans hc)
            · intro nd st' h
              simp only [ParseUntilStep, hln, hrn] at h
              rw [if_neg heof] at h
              exact Except.noConfusion h
          | ok p =>
            obtain ⟨node, st2⟩ := p
            have hsz2 := hnud.2 node st2 hrn
            have hloop := ihL rbp node st2 (by omega)
            cases hpl : (engine shellSpec f).ParseLoop rbp node st2 with
            | error err2 =>
              constructor
              · simp only [ParseUntilStep, hln, hrn, hpl]
                rw [if_neg heof]
                exact fun hc => hloop.1 (hpl.trans hc)
              · intro nd st' h
                simp only [ParseUntilStep, hln, hrn, hpl] at h
                rw [if_neg heof] at h
                exact Except.noConfusion h
            | ok q =>
              obtain ⟨nd3, st3⟩ := q
              have hsz3 := hloop.2 nd3 st3 hpl
              constructor
              · simp only [ParseUntilStep, hln, hrn, hpl]
                rw [if_neg heof]
                simp
              · intro nd st' h
                simp only [ParseUntilStep, hln, hrn, hpl] at h
                rw [if_neg heof, Except.ok.injEq, Prod.mk.injEq] at h
                rw [← h.2]
                omega
    have hAp : PAOk (f + 1) := by
      intro ch st hsz
      have hstep : (engine shellSpec (f + 1)).FuncArgLoop =
          FuncArgLoopStep shellSpec (engine shellSpec f) := rfl
      rw [hstep]
      by_cases hpar : st.cur.type = ")"
      · constructor
        · simp only [FuncArgLoopStep, hpar]
          simp
        · intro ch' st' h
          simp only [FuncArgLoopStep] at h
          rw [if_pos hpar, Except.ok.injEq, Prod.mk.injEq] at h
          rw [← h.2]
      · obtain ⟨hne, hok⟩ := ihU 0 st (by omega)
        cases h1 : (engine shellSpec f).ParseUntil 0 st with
        | error err =>
          constructor
          · simp only [FuncArgLoopStep, h1]
            rw [if_neg hpar]
            intro hc
            injection hc with h'
            subst h'
            exact hne h1
          · intro ch' st' h
            simp only [FuncArgLoopStep, h1] at h
            rw [if_neg hpar] at h
            exact Except.noConfusion h
        | ok p =>
          obtain ⟨cl, st1⟩ := p
          have hlt := hok cl st1 h1
          have harg := ihA
            (ch ++ (if cl.token.type = "," then cl.children else [cl])) st1
            (by omega)
          cases h2 : (engine shellSpec f).FuncArgLoop
              (ch ++ (if cl.token.type = "," then cl.children else [cl]))
              st1 with
          | error err =>
            constructor
            · simp only [FuncArgLoopStep, h1, h2]
              rw [if_neg hpar]
              exact fun hc => harg.1 (h2.trans hc)
            · intro ch' st' h
              simp only [FuncArgLoopStep, h1, h2] at h
              rw [if_neg hpar] at h
              exact Except.noConfusion h
          | ok q =>
            obtain ⟨ch2, st2⟩ := q
            have hle2 := harg.2 ch2 st2 h2
            constructor
            · simp only [FuncArgLoopStep, h1, h2]
              rw [if_neg hpar]
              simp
            · intro ch' st' h
              simp only [FuncArgLoopStep, h1, h2] at h
              rw [if_neg hpar, Except.ok.injEq, Prod.mk.injEq] at h
              rw [← h.2]
              omega
    exact ⟨hUp, hL, hAp⟩

end Tdop
namespace Tdop

/-- C3: for every minimum binding power and parser state whose current token
has an infix rule, one step of the infix loop returns the accumulated left
subtree exactly when `minBp` is at least the rule's left binding power;
otherwise it consumes the token, invokes the rule's handler with the rule's
right binding power, and repeats. -/
theorem C3_infix_loop (spec : ParserSpec) (fuel : Nat) (minBp : Int)
    (left : Node) (st : PState) (li : LeftInfo)
    (h : spec.LookupLeft st.cur.type = .ok li) :
    (engine spec (fuel + 1)).ParseLoop minBp left st =
      if li.lbp ≤ minBp then .ok (left, st)
      else
        match runLed li.led (engine spec fuel) st.cur left li.rbp (Next st) with
        | .error err => .error err
        | .ok (left2, st2) => (engine spec fuel).ParseLoop minBp left2 st2 := by
  have hstep : (engine spec (fuel + 1)).ParseLoop =
      ParseLoopStep spec (engine spec fuel) := rfl
  rw [hstep]
  simp only [ParseLoopStep, h]

theorem C3_infix_loop_witness :
    shellSpec.LookupLeft "+" = .ok ⟨.BinaryOp, 23, 23⟩ ∧
    ((engine shellSpec 5).ParseLoop 0 (.leaf ⟨"name", .str "a"⟩)
        ⟨⟨"+", .str "+"⟩, [⟨"number", .num 2⟩]⟩ =
      if (23 : Int) ≤ 0 then
        .ok (.leaf ⟨"name", .str "a"⟩, ⟨⟨"+", .str "+"⟩, [⟨"number", .num 2⟩]⟩)
      else
        match runLed .BinaryOp (engine shellSpec 4) ⟨"+", .str "+"⟩
            (.leaf ⟨"name", .str "a"⟩) 23
            (Next ⟨⟨"+", .str "+"⟩, [⟨"number", .num 2⟩]⟩) with
        | .error err => .error err
        | .ok (left2, st2) => (engine shellSpec 4).ParseLoop 0 left2 st2) :=
  ⟨rfl, C3_infix_loop shellSpec 4 0 (.leaf ⟨"name", .str "a"⟩)
    ⟨⟨"+", .str "+"⟩, [⟨"number", .num 2⟩]⟩ ⟨.BinaryOp, 23, 23⟩ rfl⟩

/-- C9: for every input string the parse terminates with a tree or a
documented error: the fuel supplied by `ParseShell` (linear in the token
count) is never exhausted, so the embedded recursion covers the source's
full run; the malformed inputs `:`, `(1` and `a ? b` in particular
terminate in the documented errors. -/
theorem C9_terminates (s : String) :
    isOutOfFuel (ParseShell s) = false ∧
    ParseShell ":" = .error (.nullError ⟨":", .str ":"⟩) ∧
    ParseShell "(1" = .error (.eatMismatch ")" eofToken) ∧
    ParseShell "a ? b" = .error (.eatMismatch ":" eofToken) := by
  refine ⟨?_, rfl, rfl, rfl⟩
  unfold ParseShell ParseTokens
  have hfa := (engine_fuel_ok (defaultFuel (Tokenize s))).1 0
    (startState (Tokenize s))
    (by have := startState_size_le (Tokenize s); unfold defaultFuel; omega)
  cases hp : (engine shellSpec (defaultFuel (Tokenize s))).ParseUntil 0
      (startState (Tokenize s)) with
  | error err =>
    have herr : err ≠ .outOfFuel := fun hc => hfa.1 (hc ▸ hp)
    cases err
    case outOfFuel => exact absurd rfl herr
    all_goals simp [isOutOfFuel, Except.map]
  | ok p =>
    simp [isOutOfFuel, Except.map]

end Tdop
